import Mathlib

/-!
Verification of the neodb lock/keygen/deriver core.

The Python sources are shallowly embedded:
* `src/keygen.py` — `gen_key` and its presets, with `random.choice` modelled
  by an oracle stream of natural-number draws reduced mod the alphabet size.
* `src/__init__.py` — `as_path` (identity-path flattening), with Python
  strings modelled as `List Char` and key identifiers as `Ident`.
* `src/mutex.py` — the `lock` context manager, modelled as a trace of store
  events (`memcache.add`, `time.sleep`, body entry, `memcache.delete`)
  driven by an oracle for the add outcomes and one for the random jitter;
  and, for the concurrency claim, an interleaving transition system over the
  shared store's atomic create-if-absent and delete primitives.
-/

namespace Neodb

/-! ### Keygen (src/keygen.py) -/

/-- The default alphabet of `gen_key`
(`'23456789abcdefghijkmnopqrstuvwxyzABCDEFGHJKLMNPQRSTUVWXYZ'`). -/
def keygenAlphabet : List Char :=
  ("23456789abcdefghijkmnopqrstuvwxyzABCDEFGHJKLMNPQRSTUVWXYZ" : String).data

/-- `random.choice(alphabet)` for the `i`-th draw: the oracle `rng` supplies an
arbitrary natural number per draw and the choice is the corresponding index
into the alphabet (uniform index into the sequence in Python). -/
def pyChoice (alphabet : List Char) (draw : Nat) : Char :=
  alphabet.getD (draw % alphabet.length) 'x'

/-- `gen_key(size, alphabet)`: join of `size` independent random choices from
`alphabet` (src/keygen.py line 8). -/
def gen_key (rng : Nat → Nat) (size : Nat := 11) (alphabet : List Char := keygenAlphabet) :
    List Char :=
  (List.range size).map fun i => pyChoice alphabet (rng i)

/-- `gen_short_key()` = `gen_key(size=11)`. -/
def gen_short_key (rng : Nat → Nat) : List Char := gen_key rng 11

/-- `gen_medium_key()` = `gen_key(size=22)`. -/
def gen_medium_key (rng : Nat → Nat) : List Char := gen_key rng 22

/-- `gen_long_key()` = `gen_key(size=44)`. -/
def gen_long_key (rng : Nat → Nat) : List Char := gen_key rng 44

/-! ### Identity-to-name deriver (src/__init__.py, `as_path`) -/

/-- An identifier in an ndb key pair: a string token, an integer, or the
unresolved identifier of an incomplete key (Python `None`). -/
inductive Ident : Type
  | tok (s : List Char)
  | num (n : Int)
  | unset
deriving DecidableEq, Repr

/-- Python `str(it)` for a flat-key component that is an identifier:
string ids pass through, integers render base-10, `None` renders `"None"`. -/
def Ident.pyStr : Ident → List Char
  | .tok s => s
  | .num n => (toString n).data
  | .unset => ("None" : String).data

/-- `ndb.Key.flat()`: the interleaved `(kind1, id1, kind2, id2, ...)` tuple of
an identity path, root first, each component as its Python string form. -/
def keyFlat (path : List (List Char × Ident)) : List (List Char) :=
  path.flatMap fun p => [p.1, p.2.pyStr]

/-- Python `separator.join(parts)`. -/
def strJoin (sep : List Char) : List (List Char) → List Char
  | [] => []
  | [x] => x
  | x :: y :: xs => x ++ sep ++ strJoin sep (y :: xs)

/-- `as_path(item, separator=':')` (src/__init__.py lines 59–62): `None` maps
to `None`; otherwise the flat key components are string-coerced and joined by
the separator. -/
def as_path (item : Option (List (List Char × Ident))) (separator : List Char := [':']) :
    Option (List Char) :=
  match item with
  | none => none
  | some path => some (strJoin separator (keyFlat path))

/-! ### Lock coordinator, trace semantics (src/mutex.py, `lock`) -/

/-- The memcache namespace used by the coordinator (`namespace='mutex'`). -/
def mutexNS : List Char := ("mutex" : String).data

/-- A store/scheduler event emitted by one run of `lock`:
`add key expiry ns ok` is a `memcache.add` call and its outcome, `sleep d` a
`time.sleep(d)` call, `enter` the start of the protected block (`yield`), and
`del key ns` a `memcache.delete` call. -/
inductive Ev : Type
  | add (key : List Char) (expiry : Nat) (ns : List Char) (ok : Bool)
  | sleep (d : ℚ)
  | enter
  | del (key : List Char) (ns : List Char)
deriving DecidableEq, Repr

/-- How the protected block exits: normal completion, a raised exception, or
an early `return` out of the `with` block. -/
inductive Outcome : Type
  | normal
  | raised
  | earlyReturn
deriving DecidableEq, Repr

/-- The observable outcome of one run of `lock`: either `LockUnavailable`
(carrying the mutex name, as the exception stores it) or the protected
block's own outcome propagated to the caller. -/
inductive RunResult : Type
  | lockUnavailable (mutex : List Char)
  | finished (o : Outcome)
deriving DecidableEq, Repr

/-- Default `expiry=10*60` of `lock`. -/
def lockDefaultExpiry : Nat := 10 * 60

/-- Default `retries=5` of `lock`. -/
def lockDefaultRetries : Nat := 5

/-- Default `backoff=2` of `lock`. -/
def lockDefaultBackoff : ℚ := 2

/-- The `for retry in xrange(retries)` loop of `lock`: at loop index `retry`
with `k` iterations remaining, call `memcache.add`; on success break out
(acquired), otherwise `time.sleep(backoff ** retry + random() * 1)` and
continue. `addOk i` is the oracle outcome of the `i`-th add (contention by
other holders); `jitter i` the `i`-th `random()` draw. Returns the events
emitted and whether the loop broke out (acquired). -/
def acquireLoop (m : List Char) (expiry : Nat) (addOk : Nat → Bool) (jitter : Nat → ℚ)
    (backoff : ℚ) : Nat → Nat → List Ev × Bool
  | _, 0 => ([], false)
  | retry, k + 1 =>
    if addOk retry then ([Ev.add m expiry mutexNS true], true)
    else
      let rest := acquireLoop m expiry addOk jitter backoff (retry + 1) k
      (Ev.add m expiry mutexNS false :: Ev.sleep (backoff ^ retry + jitter retry * 1) :: rest.1,
        rest.2)

/-- One full run of `lock(mutex, expiry, retries, backoff)` around a protected
block whose exit is `body`: run the acquisition loop; if it never broke out,
raise `LockUnavailable(mutex)` (the `for`/`else`); otherwise enter the block
and, in `finally`, delete the entry before propagating the block's outcome. -/
def lockRun (m : List Char) (addOk : Nat → Bool) (jitter : Nat → ℚ) (body : Outcome)
    (expiry : Nat := lockDefaultExpiry) (retries : Nat := lockDefaultRetries)
    (backoff : ℚ := lockDefaultBackoff) : List Ev × RunResult :=
  let acq := acquireLoop m expiry addOk jitter backoff 0 retries
  if acq.2 then (acq.1 ++ [Ev.enter, Ev.del m mutexNS], RunResult.finished body)
  else (acq.1, RunResult.lockUnavailable m)

/-- Whether an event is a `memcache.add` call. -/
def Ev.isAdd : Ev → Bool
  | .add _ _ _ _ => true
  | _ => false

/-- Whether an event is a `memcache.delete` call. -/
def Ev.isDel : Ev → Bool
  | .del _ _ => true
  | _ => false

/-- The sleep durations requested along a trace, in order. -/
def sleeps (evs : List Ev) : List ℚ :=
  evs.filterMap fun ev =>
    match ev with
    | .sleep d => some d
    | _ => none

/-- Presence of the lock record after replaying a trace over the store,
starting from presence `s`: a successful add creates the entry, a delete
removes it, everything else leaves the store untouched. -/
def storeHas (s : Bool) (evs : List Ev) : Bool :=
  evs.foldl
    (fun cur ev =>
      match ev with
      | Ev.add _ _ _ true => true
      | Ev.del _ _ => false
      | _ => cur)
    s

/-! ### Lock coordinator, interleaving concurrency model -/

/-- Program counter of one process contending for a fixed lock name:
not yet started, spinning in the acquisition loop, inside the protected
block, or finished (released or gave up). -/
inductive PC : Type
  | idle
  | trying
  | cs
  | done
deriving DecidableEq, Repr

/-- Global state of `n` processes sharing the store entry for one lock name:
whether the entry exists, and each process's program counter. -/
structure SysState (n : Nat) where
  store : Bool
  pcs : Fin n → PC

/-- Initial state: no lock record, every process idle. -/
def sysInit (n : Nat) : SysState n :=
  ⟨false, fun _ => PC.idle⟩

/-- Interleaved atomic steps. `addWin`/`addFail` are the two outcomes of the
store's atomic create-if-absent (`memcache.add` succeeds exactly when the
entry is absent); `release` is the `finally` delete; `giveUp` is raising
`LockUnavailable` after exhausting retries. -/
inductive SysStep {n : Nat} : SysState n → SysState n → Prop
  | start (s : SysState n) (i : Fin n) :
      s.pcs i = PC.idle → SysStep s ⟨s.store, Function.update s.pcs i PC.trying⟩
  | addWin (s : SysState n) (i : Fin n) :
      s.pcs i = PC.trying → s.store = false →
      SysStep s ⟨true, Function.update s.pcs i PC.cs⟩
  | addFail (s : SysState n) (i : Fin n) :
      s.pcs i = PC.trying → s.store = true → SysStep s s
  | release (s : SysState n) (i : Fin n) :
      s.pcs i = PC.cs → SysStep s ⟨false, Function.update s.pcs i PC.done⟩
  | giveUp (s : SysState n) (i : Fin n) :
      s.pcs i = PC.trying → SysStep s ⟨s.store, Function.update s.pcs i PC.done⟩

/-- The safety invariant: a process inside the protected block implies the
lock record exists and no other process is inside. -/
def MutexInv {n : Nat} (s : SysState n) : Prop :=
  ∀ i : Fin n, s.pcs i = PC.cs → s.store = true ∧ ∀ j : Fin n, s.pcs j = PC.cs → j = i

/-- A concrete two-process state in which process 0 has started trying. -/
def tryingState : SysState 2 :=
  ⟨false, Function.update (fun _ => PC.idle) (0 : Fin 2) PC.trying⟩

/-- A concrete two-process state in which process 0 has won the
create-if-absent and entered the protected block. -/
def csState : SysState 2 :=
  ⟨true, Function.update tryingState.pcs (0 : Fin 2) PC.cs⟩

/-! ## Helper lemmas -/

/-- A choice from a non-empty alphabet is a member of the alphabet. -/
theorem pyChoice_mem (l : List Char) (h : l ≠ []) (d : Nat) : pyChoice l d ∈ l := by
  have hlen : 0 < l.length := List.length_pos.mpr h
  have hlt : d % l.length < l.length := Nat.mod_lt _ hlen
  unfold pyChoice
  rw [List.getD_eq_getElem l 'x' hlt]
  exact List.getElem_mem hlt

/-- Peeling a map over `List.range` from the front. -/
theorem range_map_shift {α : Type} (f : Nat → α) (k : Nat) :
    (List.range (k + 1)).map f = f 0 :: (List.range k).map (fun i => f (i + 1)) := by
  rw [List.range_succ_eq_map]
  simp [List.map_map, Function.comp]

/-- Closed form of the acquisition loop when every `memcache.add` fails:
each of the `k` remaining iterations emits a failed add and a backoff sleep,
and the loop never breaks out. -/
theorem acquireLoop_allFail (m : List Char) (e : Nat) (addOk : Nat → Bool) (j : Nat → ℚ)
    (b : ℚ) (hf : ∀ i, addOk i = false) :
    ∀ (k r : Nat), acquireLoop m e addOk j b r k =
      ((List.range k).flatMap
        (fun i => [Ev.add m e mutexNS false, Ev.sleep (b ^ (r + i) + j (r + i) * 1)]), false) := by
  intro k
  induction k with
  | zero => intro r; rfl
  | succ k ih =>
    intro r
    rw [acquireLoop, hf r]
    simp only [Bool.false_eq_true, if_false]
    rw [ih (r + 1)]
    have hsh := range_map_shift
      (fun i => [Ev.add m e mutexNS false, Ev.sleep (b ^ (r + i) + j (r + i) * 1)]) k
    rw [List.flatMap, List.flatMap, hsh]
    simp only [List.flatten, Nat.add_zero]
    have harg : (fun i => [Ev.add m e mutexNS false,
        Ev.sleep (b ^ (r + (i + 1)) + j (r + (i + 1)) * 1)]) =
        (fun i => [Ev.add m e mutexNS false,
        Ev.sleep (b ^ (r + 1 + i) + j (r + 1 + i) * 1)]) := by
      funext i
      rw [show r + (i + 1) = r + 1 + i by omega]
    rw [harg]
    simp

/-- An all-fail trace contains one add per iteration. -/
theorem flatMapFail_countP (m : List Char) (e : Nat) (g : Nat → ℚ) :
    ∀ l : List Nat,
      ((l.flatMap fun i => [Ev.add m e mutexNS false, Ev.sleep (g i)]).countP Ev.isAdd) =
        l.length := by
  intro l
  induction l with
  | nil => rfl
  | cons a l ih => simp [List.countP_cons, ih, Ev.isAdd]

/-- An all-fail trace contains no delete and no entry into the block. -/
theorem flatMapFail_shape (m : List Char) (e : Nat) (g : Nat → ℚ) :
    ∀ l : List Nat,
      ∀ ev ∈ l.flatMap fun i => [Ev.add m e mutexNS false, Ev.sleep (g i)],
        Ev.isDel ev = false ∧ ev ≠ Ev.enter := by
  intro l
  induction l with
  | nil => intro ev h; simp at h
  | cons a l ih =>
    intro ev h
    simp only [List.flatMap_cons, List.cons_append, List.nil_append, List.mem_cons] at h
    rcases h with h | h | h
    · subst h; exact ⟨rfl, by intro hc; cases hc⟩
    · subst h; exact ⟨rfl, by intro hc; cases hc⟩
    · exact ih ev h

/-- An all-fail trace leaves the store untouched. -/
theorem flatMapFail_store (m : List Char) (e : Nat) (g : Nat → ℚ) :
    ∀ (l : List Nat) (s : Bool),
      storeHas s (l.flatMap fun i => [Ev.add m e mutexNS false, Ev.sleep (g i)]) = s := by
  intro l
  induction l with
  | nil => intro s; rfl
  | cons a l ih => intro s; simpa [storeHas, List.flatMap_cons] using ih s

/-- The sleep durations of an all-fail trace, in order. -/
theorem flatMapFail_sleeps (m : List Char) (e : Nat) (g : Nat → ℚ) :
    ∀ l : List Nat,
      sleeps (l.flatMap fun i => [Ev.add m e mutexNS false, Ev.sleep (g i)]) = l.map g := by
  intro l
  induction l with
  | nil => rfl
  | cons a l ih => simp [sleeps, List.flatMap_cons] at ih ⊢; exact ih

/-- If some attempt within the budget succeeds, the loop breaks out. -/
theorem acquireLoop_win (m : List Char) (e : Nat) (addOk : Nat → Bool) (j : Nat → ℚ) (b : ℚ) :
    ∀ (k r : Nat), (∃ i, i < k ∧ addOk (r + i) = true) →
      (acquireLoop m e addOk j b r k).2 = true := by
  intro k
  induction k with
  | zero =>
    intro r h
    obtain ⟨i, hi, _⟩ := h
    omega
  | succ k ih =>
    intro r h
    obtain ⟨i, hi, hok⟩ := h
    rw [acquireLoop]
    by_cases hr : addOk r
    · simp [hr]
    · simp only [hr, Bool.false_eq_true, if_false]
      apply ih
      cases i with
      | zero => exact absurd (by simpa using hok) hr
      | succ i2 => exact ⟨i2, by omega, by rw [show r + 1 + i2 = r + (i2 + 1) by omega]; exact hok⟩

/-- A sum of pointwise sums of two sequences splits. -/
theorem list_sum_map_add (l : List Nat) (f g : Nat → ℚ) :
    (l.map fun i => f i + g i).sum = (l.map f).sum + (l.map g).sum := by
  induction l with
  | nil => simp
  | cons a l ih => simp [ih]; ring

/-- A sum of `N` terms each below one is at most `N`. -/
theorem jitter_sum_le (j : Nat → ℚ) (h : ∀ i, j i < 1) :
    ∀ N : Nat, ((List.range N).map j).sum ≤ (N : ℚ) := by
  intro N
  induction N with
  | zero => simp
  | succ N ih =>
    rw [List.range_succ, List.map_append, List.sum_append]
    push_cast
    have := h N
    simp only [List.map_cons, List.map_nil, List.sum_cons, List.sum_nil]
    linarith

/-- Cancelling a separator occurrence: two separator-free prefixes followed
by the separator and arbitrary suffixes agree iff prefixes and suffixes do. -/
theorem append_sep_inj (c : Char) :
    ∀ (a b u v : List Char), c ∉ a → c ∉ b → a ++ c :: u = b ++ c :: v → a = b ∧ u = v := by
  intro a
  induction a with
  | nil =>
    intro b u v _ hb h
    cases b with
    | nil => simpa using h
    | cons x bs =>
      simp only [List.nil_append, List.cons_append, List.cons.injEq] at h
      exact absurd (h.1 ▸ List.mem_cons_self x bs) hb
  | cons x as ih =>
    intro b u v ha hb h
    cases b with
    | nil =>
      simp only [List.cons_append, List.nil_append, List.cons.injEq] at h
      exact absurd (show c ∈ x :: as by rw [h.1]; exact List.mem_cons_self c as) ha
    | cons y bs =>
      simp only [List.cons_append, List.cons.injEq] at h
      obtain ⟨hxy, hrest⟩ := h
      have := ih bs u v (fun hc => ha (List.mem_cons_of_mem x hc))
        (fun hc => hb (hxy ▸ List.mem_cons_of_mem y hc)) hrest
      exact ⟨by rw [hxy, this.1], this.2⟩

/-- Joining by a single-character separator is injective on equal-length
lists of separator-free components. -/
theorem strJoin_inj (c : Char) :
    ∀ (l1 l2 : List (List Char)), (∀ x ∈ l1, c ∉ x) → (∀ x ∈ l2, c ∉ x) →
      l1.length = l2.length → strJoin [c] l1 = strJoin [c] l2 → l1 = l2 := by
  intro l1
  induction l1 with
  | nil =>
    intro l2 _ _ hlen _
    exact (List.length_eq_zero.mp hlen.symm).symm ▸ rfl
  | cons x xs ih =>
    intro l2 h1 h2 hlen hj
    cases l2 with
    | nil => simp at hlen
    | cons y ys =>
      cases xs with
      | nil =>
        cases ys with
        | nil => simpa [strJoin] using hj
        | cons z zs => simp at hlen
      | cons x2 xs2 =>
        cases ys with
        | nil => simp at hlen
        | cons y2 ys2 =>
          have hx : c ∉ x := h1 x (List.mem_cons_self _ _)
          have hy : c ∉ y := h2 y (List.mem_cons_self _ _)
          rw [strJoin, strJoin] at hj
          have hj2 : x ++ c :: strJoin [c] (x2 :: xs2) = y ++ c :: strJoin [c] (y2 :: ys2) := by
            simpa [List.append_assoc] using hj
          obtain ⟨hxy, hrest⟩ := append_sep_inj c x y _ _ hx hy hj2
          have := ih (y2 :: ys2) (fun z hz => h1 z (List.mem_cons_of_mem x hz))
            (fun z hz => h2 z (List.mem_cons_of_mem y hz)) (by simpa using hlen) hrest
          rw [hxy, this]

/-- The flattening of a path has twice as many components as the path. -/
theorem keyFlat_length (path : List (List Char × Ident)) :
    (keyFlat path).length = 2 * path.length := by
  induction path with
  | nil => rfl
  | cons p ps ih => simp [keyFlat, List.flatMap_cons] at ih ⊢; omega

/-- The invariant holds initially. -/
theorem mutexInv_init (n : Nat) : MutexInv (sysInit n) := by
  intro i h
  cases h

/-- Every atomic step preserves the invariant. -/
theorem mutexInv_step {n : Nat} {s t : SysState n} (hs : MutexInv s) (hst : SysStep s t) :
    MutexInv t := by
  cases hst with
  | start i hi =>
    intro k hk
    simp only [Function.update_apply] at hk ⊢
    split at hk
    · cases hk
    · obtain ⟨hstore, huniq⟩ := hs k hk
      refine ⟨hstore, ?_⟩
      intro j hj
      split at hj
      · cases hj
      · exact huniq j hj
  | addWin i hi hstore =>
    intro k hk
    simp only [Function.update_apply] at hk ⊢
    refine ⟨trivial, ?_⟩
    have hki : k = i := by
      rcases Decidable.eq_or_ne k i with h | h
      · exact h
      · rw [if_neg h] at hk
        exact absurd (hs k hk).1 (by simp [hstore])
    intro j hj
    have hji : j = i := by
      rcases Decidable.eq_or_ne j i with h | h
      · exact h
      · rw [if_neg h] at hj
        exact absurd (hs j hj).1 (by simp [hstore])
    rw [hki, hji]
  | addFail i hi hstore => exact hs
  | release i hi =>
    intro k hk
    exfalso
    simp only [Function.update_apply] at hk
    split at hk
    · cases hk
    · rename_i h
      exact h ((hs i hi).2 k hk)
  | giveUp i hi =>
    intro k hk
    simp only [Function.update_apply] at hk ⊢
    split at hk
    · cases hk
    · obtain ⟨hstore, huniq⟩ := hs k hk
      refine ⟨hstore, ?_⟩
      intro j hj
      split at hj
      · cases hj
      · exact huniq j hj

/-- The invariant holds in every reachable state. -/
theorem mutexInv_reachable {n : Nat} {s : SysState n}
    (h : Relation.ReflTransGen SysStep (sysInit n) s) : MutexInv s := by
  induction h with
  | refl => exact mutexInv_init n
  | tail hab hbc ih => exact mutexInv_step ih hbc

/-! ## Claim theorems -/

/-- C1. Mutual exclusion: in every state reachable by interleaving the atomic
create-if-absent, delete, retry and give-up steps of arbitrarily many
processes contending for the same lock name, at most one process is inside
the protected block; in particular each attempt cycle has at most one winner
of the store's create-if-absent (an `addWin` step is enabled only while the
record is absent, and it makes the winner the unique holder until its
release). TTL expiry of the record during a hold is a real-time behaviour of
the external store and is outside this model. -/
theorem mutex_mutual_exclusion {n : Nat} (s : SysState n)
    (h : Relation.ReflTransGen SysStep (sysInit n) s) :
    ∀ i j : Fin n, s.pcs i = PC.cs → s.pcs j = PC.cs → i = j := by
  intro i j hi hj
  exact ((mutexInv_reachable h i hi).2 j hj).symm ▸ rfl

/-- Witness for C1: a two-process execution in which process 0 starts and
wins the create-if-absent reaches `csState`, and the theorem applies there. -/
theorem mutex_mutual_exclusion_witness :
    Relation.ReflTransGen SysStep (sysInit 2) csState ∧ (0 : Fin 2) = 0 := by
  have h1 : SysStep (sysInit 2) tryingState := SysStep.start (sysInit 2) 0 rfl
  have h2 : SysStep tryingState csState := SysStep.addWin tryingState 0 (by decide) rfl
  have hr : Relation.ReflTransGen SysStep (sysInit 2) csState :=
    Relation.ReflTransGen.tail (Relation.ReflTransGen.single h1) h2
  exact ⟨hr, mutex_mutual_exclusion csState hr 0 0 (by decide) (by decide)⟩

/-- C2. Guaranteed release: whenever some attempt within the retry budget
succeeds, the run propagates the protected block's outcome (normal, raised
or early return), its trace ends with entering the block followed by a
delete of the name in the `mutex` namespace, and replaying the trace over
the store from any initial presence leaves the entry absent. -/
theorem lock_guaranteed_release (m : List Char) (e R : Nat) (addOk : Nat → Bool)
    (jit : Nat → ℚ) (b : ℚ) (body : Outcome) (hwin : ∃ i, i < R ∧ addOk i = true) :
    (lockRun m addOk jit body e R b).2 = RunResult.finished body ∧
    (∃ pre, (lockRun m addOk jit body e R b).1 = pre ++ [Ev.enter, Ev.del m mutexNS]) ∧
    ∀ s : Bool, storeHas s (lockRun m addOk jit body e R b).1 = false := by
  have hacq : (acquireLoop m e addOk jit b 0 R).2 = true := by
    apply acquireLoop_win
    obtain ⟨i, h1, h2⟩ := hwin
    exact ⟨i, h1, by simpa using h2⟩
  have hrun : lockRun m addOk jit body e R b =
      ((acquireLoop m e addOk jit b 0 R).1 ++ [Ev.enter, Ev.del m mutexNS],
        RunResult.finished body) := by
    rw [lockRun, if_pos hacq]
  rw [hrun]
  refine ⟨rfl, ⟨_, rfl⟩, ?_⟩
  intro s
  rw [storeHas, List.foldl_append]
  rfl

/-- Witness for C2: with one retry whose add succeeds and a body that raises,
the error propagates and the store entry is absent afterwards. -/
theorem lock_guaranteed_release_witness :
    (lockRun (['k'] : List Char) (fun _ => true) (fun _ => (0 : ℚ)) Outcome.raised 60 1 2).2 =
      RunResult.finished Outcome.raised ∧
    storeHas true
      (lockRun (['k'] : List Char) (fun _ => true) (fun _ => (0 : ℚ)) Outcome.raised 60 1 2).1 =
      false := by
  have h := lock_guaranteed_release ['k'] 60 1 (fun _ => true) (fun _ => (0 : ℚ)) 2
    Outcome.raised ⟨0, by decide, rfl⟩
  exact ⟨h.1, h.2.2 true⟩

/-- C3. Bounded retry with failure atomicity: for `N ≥ 1` retries, if every
create-if-absent fails, the run raises `LockUnavailable` carrying the lock
name after exactly `N` add attempts, its trace contains no delete and never
enters the protected block, and replaying it mutates no store state. -/
theorem lock_bounded_retry (m : List Char) (e N : Nat) (addOk : Nat → Bool) (j : Nat → ℚ)
    (b : ℚ) (body : Outcome) (hN : 1 ≤ N) (hf : ∀ i, addOk i = false) :
    (lockRun m addOk j body e N b).2 = RunResult.lockUnavailable m ∧
    ((lockRun m addOk j body e N b).1.countP Ev.isAdd) = N ∧
    (∀ ev ∈ (lockRun m addOk j body e N b).1, Ev.isDel ev = false ∧ ev ≠ Ev.enter) ∧
    ∀ s : Bool, storeHas s (lockRun m addOk j body e N b).1 = s := by
  have hloop := acquireLoop_allFail m e addOk j b hf N 0
  have hrun : lockRun m addOk j body e N b =
      ((List.range N).flatMap
        (fun i => [Ev.add m e mutexNS false, Ev.sleep (b ^ (0 + i) + j (0 + i) * 1)]),
        RunResult.lockUnavailable m) := by
    rw [lockRun, hloop]
    rfl
  rw [hrun]
  refine ⟨rfl, ?_, ?_, ?_⟩
  · rw [flatMapFail_countP, List.length_range]
  · exact flatMapFail_shape m e _ _
  · exact fun s => flatMapFail_store m e _ _ s

/-- Witness for C3: two permanently failing retries yield `LockUnavailable`
and exactly two add attempts. -/
theorem lock_bounded_retry_witness :
    (1 : Nat) ≤ 2 ∧
    (lockRun (['k'] : List Char) (fun _ => false) (fun _ => (0 : ℚ)) Outcome.normal 60 2 2).2 =
      RunResult.lockUnavailable ['k'] ∧
    ((lockRun (['k'] : List Char) (fun _ => false) (fun _ => (0 : ℚ))
        Outcome.normal 60 2 2).1.countP Ev.isAdd) = 2 := by
  have h := lock_bounded_retry ['k'] 60 2 (fun _ => false) (fun _ => (0 : ℚ)) 2
    Outcome.normal (by decide) (fun _ => rfl)
  exact ⟨by decide, h.1, h.2.1⟩

/-- C4. Backoff schedule: on a fully failed acquisition with `N` retries the
requested sleeps are exactly `backoff ^ i + jitter i * 1` for `i = 0..N-1`,
so the total requested sleep is the sum of the powers plus the sum of the
`N` jitter draws, which is nonnegative and below `N` whenever each draw lies
in `[0, 1)`. -/
theorem lock_backoff_schedule (m : List Char) (e N : Nat) (addOk : Nat → Bool) (j : Nat → ℚ)
    (b : ℚ) (body : Outcome) (hf : ∀ i, addOk i = false) (hj : ∀ i, 0 ≤ j i ∧ j i < 1) :
    sleeps (lockRun m addOk j body e N b).1 = (List.range N).map (fun i => b ^ i + j i * 1) ∧
    (sleeps (lockRun m addOk j body e N b).1).sum
      = ((List.range N).map fun i => b ^ i).sum + ((List.range N).map j).sum ∧
    0 ≤ ((List.range N).map j).sum ∧
    (1 ≤ N → ((List.range N).map j).sum < (N : ℚ)) := by
  have hloop := acquireLoop_allFail m e addOk j b hf N 0
  have hrun : (lockRun m addOk j body e N b).1 =
      (List.range N).flatMap
        (fun i => [Ev.add m e mutexNS false, Ev.sleep (b ^ (0 + i) + j (0 + i) * 1)]) := by
    rw [lockRun, hloop]
    rfl
  have hsl : sleeps (lockRun m addOk j body e N b).1 =
      (List.range N).map (fun i => b ^ i + j i * 1) := by
    rw [hrun, flatMapFail_sleeps]
    simp
  refine ⟨hsl, ?_, ?_, ?_⟩
  · rw [hsl]
    have := list_sum_map_add (List.range N) (fun i => b ^ i) (fun i => j i * 1)
    simp only [mul_one] at this ⊢
    exact this
  · exact List.sum_nonneg (by
      intro x hx
      obtain ⟨i, _, rfl⟩ := List.mem_map.mp hx
      exact (hj i).1)
  · intro hN
    obtain ⟨M, rfl⟩ : ∃ M, N = M + 1 := ⟨N - 1, by omega⟩
    rw [List.range_succ, List.map_append, List.sum_append]
    have h1 := jitter_sum_le j (fun i => (hj i).2) M
    have h2 := (hj M).2
    push_cast
    simp only [List.map_cons, List.map_nil, List.sum_cons, List.sum_nil]
    linarith

/-- Witness for C4: two failing retries with constant jitter one half sleep
for `2^0 + 1/2` then `2^1 + 1/2`, and the jitter total stays below 2. -/
theorem lock_backoff_schedule_witness :
    sleeps (lockRun (['k'] : List Char) (fun _ => false) (fun _ => (1 : ℚ) / 2)
        Outcome.normal 60 2 2).1 =
      (List.range 2).map (fun i => (2 : ℚ) ^ i + (1 : ℚ) / 2 * 1) ∧
    (1 ≤ 2 → ((List.range 2).map (fun _ : Nat => (1 : ℚ) / 2)).sum < ((2 : Nat) : ℚ)) := by
  have h := lock_backoff_schedule ['k'] 60 2 (fun _ => false) (fun _ => (1 : ℚ) / 2) 2
    Outcome.normal (fun _ => rfl) (fun _ => by norm_num)
  exact ⟨h.1, h.2.2.2⟩

/-- C5 counterexample: the identity paths `[("K", "5"), ("K", 5)]` and
`[("K", 5), ("K", "5")]` are structurally distinct orderings of the same two
components, yet both flatten to the string `"K:5:K:5"`, because the string
id `"5"` and the integer id `5` coerce to the same string form. -/
theorem as_path_reorder_collision :
    ([(['K'], Ident.tok ['5']), (['K'], Ident.num 5)] :
        List (List Char × Ident)) ≠ [(['K'], Ident.num 5), (['K'], Ident.tok ['5'])] ∧
    ([(['K'], Ident.tok ['5']), (['K'], Ident.num 5)] :
        List (List Char × Ident)).Perm [(['K'], Ident.num 5), (['K'], Ident.tok ['5'])] ∧
    as_path (some [(['K'], Ident.tok ['5']), (['K'], Ident.num 5)]) [':'] =
      as_path (some [(['K'], Ident.num 5), (['K'], Ident.tok ['5'])]) [':'] := by
  refine ⟨by decide, List.Perm.swap _ _ _, by decide⟩

/-- C5 (amended). `as_path` is a pure function of the path (same path, same
string) returning the separator-joined interleaved flattening; and for two
orderings of the same components whose rendered flat components are free of
the separator character, equal output strings force equal rendered flat
component sequences — so orderings that render differently yield distinct
strings. (Orderings that render identically, such as a string id `"5"`
against an integer id `5`, or ids containing the separator, may collide.) -/
theorem as_path_order_inj (c : Char) (p1 p2 : List (List Char × Ident))
    (hperm : p1.Perm p2)
    (h1 : ∀ x ∈ keyFlat p1, c ∉ x) (h2 : ∀ x ∈ keyFlat p2, c ∉ x)
    (heq : as_path (some p1) [c] = as_path (some p2) [c]) :
    keyFlat p1 = keyFlat p2 ∧ as_path (some p1) [c] = some (strJoin [c] (keyFlat p1)) := by
  have hlen : (keyFlat p1).length = (keyFlat p2).length := by
    rw [keyFlat_length, keyFlat_length, hperm.length_eq]
  have hj : strJoin [c] (keyFlat p1) = strJoin [c] (keyFlat p2) := by
    simpa [as_path] using heq
  exact ⟨strJoin_inj c (keyFlat p1) (keyFlat p2) h1 h2 hlen hj, rfl⟩

/-- Witness for C5: the theorem applied to the one-pair path `[("a", "x")]`
against itself. -/
theorem as_path_order_inj_witness :
    keyFlat [((['a'] : List Char), Ident.tok ['x'])] =
      keyFlat [((['a'] : List Char), Ident.tok ['x'])] ∧
    as_path (some [((['a'] : List Char), Ident.tok ['x'])]) [':'] =
      some (strJoin [':'] (keyFlat [((['a'] : List Char), Ident.tok ['x'])])) :=
  as_path_order_inj ':' _ _ (List.Perm.refl _) (by decide) (by decide) rfl

/-- C6 counterexample: `as_path` does not fail on an empty identity path or
on a component without a resolvable identifier — there is no
`InvalidIdentity` anywhere in the code; the empty path yields the empty
string and an unresolved id renders as the literal `"None"`. -/
theorem as_path_empty_returns_value :
    as_path (some []) [':'] = some [] ∧
    as_path (some [((['K'] : List Char), Ident.unset)]) [':'] =
      some (("K:None" : String).data) := by
  exact ⟨rfl, by decide⟩

/-- C6 (amended). `as_path` never fails: on any non-`None` item it returns a
string (the empty string for the empty path, and components with an
unresolved identifier render as `"None"`), and it returns `None` exactly for
the `None` item. -/
theorem as_path_never_fails (sep : List Char) (path : List (List Char × Ident)) :
    (∃ s, as_path (some path) sep = some s) ∧ as_path (some []) sep = some [] ∧
      as_path none sep = none ∧
      ∀ k : List Char, as_path (some [(k, Ident.unset)]) [':'] =
        some (k ++ ':' :: ("None" : String).data) := by
  refine ⟨⟨_, rfl⟩, rfl, rfl, ?_⟩
  intro k
  simp [as_path, keyFlat, strJoin, Ident.pyStr]

/-- C7. Default configuration of the scoped acquisition: `expiry = 10*60 =
600` seconds, `retries = 5` and `backoff = 2`, and a run with the arguments
omitted is the run at exactly these values. -/
theorem lock_default_config :
    lockDefaultExpiry = 600 ∧ lockDefaultRetries = 5 ∧ lockDefaultBackoff = 2 ∧
    ∀ (m : List Char) (addOk : Nat → Bool) (j : Nat → ℚ) (body : Outcome),
      lockRun m addOk j body =
        lockRun m addOk j body lockDefaultExpiry lockDefaultRetries lockDefaultBackoff :=
  ⟨rfl, rfl, rfl, fun _ _ _ _ => rfl⟩

/-- C8. Generator output shape: for any length and non-empty alphabet,
`gen_key` returns a string of exactly that length all of whose characters
belong to the alphabet, and the presets return lengths 11, 22 and 44. -/
theorem gen_key_shape (rng : Nat → Nat) (n : Nat) (alphabet : List Char) (h : alphabet ≠ []) :
    (gen_key rng n alphabet).length = n ∧
    (∀ c ∈ gen_key rng n alphabet, c ∈ alphabet) ∧
    (gen_short_key rng).length = 11 ∧ (gen_medium_key rng).length = 22 ∧
    (gen_long_key rng).length = 44 := by
  refine ⟨by simp [gen_key], ?_, by simp [gen_short_key, gen_key],
    by simp [gen_medium_key, gen_key], by simp [gen_long_key, gen_key]⟩
  intro c hc
  simp only [gen_key, List.mem_map] at hc
  obtain ⟨i, _, rfl⟩ := hc
  exact pyChoice_mem alphabet h (rng i)

/-- Witness for C8: a three-character key over the alphabet `"ab"` with the
identity draw stream. -/
theorem gen_key_shape_witness :
    (['a', 'b'] : List Char) ≠ [] ∧
    (gen_key (fun i => i) 3 ['a', 'b']).length = 3 ∧
    ∀ c ∈ gen_key (fun i => i) 3 ['a', 'b'], c ∈ (['a', 'b'] : List Char) := by
  have h := gen_key_shape (fun i => i) 3 ['a', 'b'] (by decide)
  exact ⟨by decide, h.1, h.2.1⟩

/-- C9. The default alphabet has exactly 57 distinct characters and contains
none of the visually ambiguous characters `0`, `O`, `1`, `l`, `I`. -/
theorem keygen_default_alphabet :
    keygenAlphabet.length = 57 ∧ keygenAlphabet.Nodup ∧
    '0' ∉ keygenAlphabet ∧ 'O' ∉ keygenAlphabet ∧ '1' ∉ keygenAlphabet ∧
    'l' ∉ keygenAlphabet ∧ 'I' ∉ keygenAlphabet := by
  decide

/-- C10. Zero retries: with `retries = 0` the loop body never runs, so the
run emits no event at all — no add, no sleep, no delete, no entry into the
protected block — and raises `LockUnavailable` carrying the name. -/
theorem lock_zero_retries (m : List Char) (addOk : Nat → Bool) (j : Nat → ℚ)
    (body : Outcome) (e : Nat) (b : ℚ) :
    lockRun m addOk j body e 0 b = ([], RunResult.lockUnavailable m) := rfl

end Neodb
